import Mathlib

/-!
Verification of `heredity.py`: exact probabilistic inference over a small
genetic pedigree model.  The program enumerates every hypothesis (a gene-copy
count in {0,1,2} and a trait boolean for every individual), evaluates its
joint probability under a fixed Bayesian-network model, accumulates the mass
into per-individual buckets and finally normalizes the buckets.

The embedding below follows the Python source function by function.  Python
floats are modelled as exact rationals (ℚ); a Python `KeyError` (raised by a
failed dictionary lookup) is modelled as `Option.none`.  Person identifiers
are a generic type `α` with decidable equality; the dictionary `people` is an
association list in insertion order, and the `set` arguments of the functions
are `Finset`s.
-/

namespace Heredity

/-- `PROBS["gene"]` from the source: unconditional prior over gene-copy
counts.  The Python dict has exactly the keys 2, 1, 0; other arguments never
occur (the junk value 0 is returned for them). -/
def PROBS_gene : ℕ → ℚ
  | 2 => 0.01
  | 1 => 0.03
  | 0 => 0.96
  | _ => 0

/-- `PROBS["trait"]` from the source: probability of the trait value given
the gene-copy count.  Keys are exactly 2, 1, 0. -/
def PROBS_trait : ℕ → Bool → ℚ
  | 2, true => 0.65
  | 2, false => 0.35
  | 1, true => 0.56
  | 1, false => 0.44
  | 0, true => 0.01
  | 0, false => 0.99
  | _, _ => 0

/-- `PROBS["mutation"]` from the source. -/
def PROBS_mutation : ℚ := 0.01

/-- One person record as produced by `load_data`: optional mother and father
references and an optional observed trait. -/
structure PersonRec (α : Type) where
  mother : Option α
  father : Option α
  trait : Option Bool
deriving DecidableEq

/-- The `people` dictionary: an association list from identity to record, in
insertion order (Python dicts preserve insertion order). -/
abbrev People (α : Type) : Type := List (α × PersonRec α)

variable {α : Type} [DecidableEq α]

/-- The `genes` dict built at the top of `joint_probability`: 1 if the person
is in `one_gene`, else 2 if in `two_genes`, else 0.  The `one_gene` test
comes first, exactly as in the source. -/
def genesOf (one_gene two_genes : Finset α) (person : α) : ℕ :=
  if person ∈ one_gene then 1 else if person ∈ two_genes then 2 else 0

/-- The `trait` dict built at the top of `joint_probability`: membership in
`have_trait`. -/
def traitOf (have_trait : Finset α) (person : α) : Bool :=
  person ∈ have_trait

/-- The `p_parents[parent]` computation of `joint_probability` (lines
166-172), with the mutation rate abstracted as a parameter `m`: probability
that a parent with the given gene count passes the variant copy on. -/
def pParentM (m : ℚ) (parentGene : ℕ) : ℚ :=
  if parentGene = 1 then 0.5 * (1 - m) + 0.5 * m
  else if parentGene = 2 then 1 - m
  else m

/-- The `p_parents[parent]` computation at the model's mutation rate, as the
source runs it. -/
def pParent (parentGene : ℕ) : ℚ :=
  pParentM PROBS_mutation parentGene

/-- The `p_gene` computation for a person with parents (lines 173-179),
mutation rate abstracted: probability of the child's gene count given the
father's and mother's gene counts.  The source's `elif genes[person] == 0`
arm is the final arm here; `genesOf` only ever produces 0, 1 or 2. -/
def childGeneProbM (m : ℚ) (fatherGene motherGene childGene : ℕ) : ℚ :=
  let pf := pParentM m fatherGene
  let pm := pParentM m motherGene
  if childGene = 1 then pf * (1 - pm) + pm * (1 - pf)
  else if childGene = 2 then pf * pm
  else (1 - pf) * (1 - pm)

/-- `childGeneProbM` at the model's mutation rate, as the source runs it. -/
def childGeneProb (fatherGene motherGene childGene : ℕ) : ℚ :=
  childGeneProbM PROBS_mutation fatherGene motherGene childGene

/-- The lookup `genes[people[person][parent]]` (line 166).  The `genes` dict
has exactly the people's names as keys, so a `none` parent reference
(`genes[None]`) or a name outside the pedigree raises `KeyError`, modelled
as `none`. -/
def lookupParentGene (names : List α) (one_gene two_genes : Finset α)
    (parentRef : Option α) : Option ℕ :=
  match parentRef with
  | none => none
  | some n => if n ∈ names then some (genesOf one_gene two_genes n) else none

/-- The per-person probability `p_list[person]` of `joint_probability`
(lines 157-183).  A person with both parent fields `None` uses the gene
prior; otherwise both parents are looked up (father first, as in the
source) and the inheritance formula is used.  A failed lookup is the
`KeyError` case. -/
def personProb (names : List α) (one_gene two_genes have_trait : Finset α)
    (person : α) (r : PersonRec α) : Option ℚ :=
  if r.mother = none ∧ r.father = none then
    some (PROBS_gene (genesOf one_gene two_genes person) *
      PROBS_trait (genesOf one_gene two_genes person) (traitOf have_trait person))
  else
    match lookupParentGene names one_gene two_genes r.father,
        lookupParentGene names one_gene two_genes r.mother with
    | some fg, some mg =>
        some (childGeneProbM PROBS_mutation fg mg (genesOf one_gene two_genes person) *
          PROBS_trait (genesOf one_gene two_genes person) (traitOf have_trait person))
    | _, _ => none

/-- The `p_list` dict of `joint_probability`: per-person probabilities in
people order, `none` if any person's computation raises. -/
def collectProbs (names : List α) (one_gene two_genes have_trait : Finset α) :
    List (α × PersonRec α) → Option (List ℚ)
  | [] => some []
  | pr :: rest => do
      let p ← personProb names one_gene two_genes have_trait pr.1 pr.2
      let ps ← collectProbs names one_gene two_genes have_trait rest
      pure (p :: ps)

/-- `joint_probability(people, one_gene, two_genes, have_trait)`: the product
of the per-person probabilities, starting from `joint_p = 1`. -/
def joint_probability (people : People α) (one_gene two_genes have_trait : Finset α) :
    Option ℚ :=
  (collectProbs (people.map Prod.fst) one_gene two_genes have_trait people).map
    (fun ps => ps.foldl (· * ·) 1)

/-- The `probabilities[person]["gene"]` buckets, keys 2, 1, 0. -/
structure GeneDist where
  g2 : ℚ
  g1 : ℚ
  g0 : ℚ
deriving DecidableEq

/-- The `probabilities[person]["trait"]` buckets, keys `True`, `False`. -/
structure TraitDist where
  t : ℚ
  f : ℚ
deriving DecidableEq

/-- One person's entry of the posterior table. -/
structure PersonProbs where
  gene : GeneDist
  trait : TraitDist
deriving DecidableEq

/-- The all-zero entry main starts each person with (lines 47-60). -/
def initDist : PersonProbs :=
  ⟨⟨0, 0, 0⟩, ⟨0, 0⟩⟩

/-- The `probabilities` table main builds before enumeration: one all-zero
entry per person, in people order. -/
def initTable (people : People α) : List (α × PersonProbs) :=
  people.map (fun pr => (pr.1, initDist))

/-- The sum of a person's three gene buckets (`sum(...['gene'].values())`). -/
def geneSum (d : PersonProbs) : ℚ :=
  d.gene.g2 + d.gene.g1 + d.gene.g0

/-- The sum of a person's two trait buckets (`sum(...['trait'].values())`). -/
def traitSum (d : PersonProbs) : ℚ :=
  d.trait.t + d.trait.f

/-- The body of `update` for one person: add `p` to the gene bucket selected
by `one_gene`/`two_genes` membership (checked in that order) and to the trait
bucket selected by `have_trait` membership. -/
def updatePerson (one_gene two_genes have_trait : Finset α) (p : ℚ)
    (person : α) (d : PersonProbs) : PersonProbs :=
  let g : GeneDist :=
    if person ∈ one_gene then ⟨d.gene.g2, d.gene.g1 + p, d.gene.g0⟩
    else if person ∈ two_genes then ⟨d.gene.g2 + p, d.gene.g1, d.gene.g0⟩
    else ⟨d.gene.g2, d.gene.g1, d.gene.g0 + p⟩
  let t : TraitDist :=
    if person ∈ have_trait then ⟨d.trait.t + p, d.trait.f⟩
    else ⟨d.trait.t, d.trait.f + p⟩
  ⟨g, t⟩

/-- `update(probabilities, one_gene, two_genes, have_trait, p)`: every person
of the table gets `p` added to exactly one gene bucket and one trait
bucket. -/
def update (table : List (α × PersonProbs)) (one_gene two_genes have_trait : Finset α)
    (p : ℚ) : List (α × PersonProbs) :=
  table.map (fun xd => (xd.1, updatePerson one_gene two_genes have_trait p xd.1 xd.2))

/-- The body of `normalize` for one person (lines 222-241), kept exactly as
the source has it: if the gene sum is zero the `continue` skips the person
entirely (trait buckets included); otherwise the gene buckets are divided by
the gene sum, and then — unless the trait sum is zero — the trait buckets
are divided by `gene_sum` as well (the source divides by `gene_sum`, not
`trait_sum`, on lines 240-241). -/
def normalizePerson (d : PersonProbs) : PersonProbs :=
  let gene_sum := d.gene.g2 + d.gene.g1 + d.gene.g0
  if gene_sum = 0 then d
  else
    let g : GeneDist := ⟨d.gene.g2 / gene_sum, d.gene.g1 / gene_sum, d.gene.g0 / gene_sum⟩
    let trait_sum := d.trait.t + d.trait.f
    if trait_sum = 0 then ⟨g, d.trait⟩
    else ⟨g, ⟨d.trait.t / gene_sum, d.trait.f / gene_sum⟩⟩

/-- `normalize(probabilities)`: apply the per-person normalization to every
entry of the table. -/
def normalize (table : List (α × PersonProbs)) : List (α × PersonProbs) :=
  table.map (fun xd => (xd.1, normalizePerson xd.2))

/-- `powerset(s)`: the list of all subsets of `s`.  The source materializes
`itertools.combinations` output; the recursion here produces the same
collection of subsets (every subset of the input, each exactly once when the
input list is duplicate-free). -/
def powerset : List α → List (Finset α)
  | [] => [∅]
  | a :: as => powerset as ++ (powerset as).map (insert a)

/-- One person's contribution to `fails_evidence` (lines 67-71): true when
the person's trait is observed and differs from `have_trait` membership. -/
def personFails (have_trait : Finset α) (person : α) (r : PersonRec α) : Bool :=
  match r.trait with
  | none => false
  | some b => b != decide (person ∈ have_trait)

/-- `fails_evidence` for a candidate trait set: some person's observed trait
disagrees with the set. -/
def failsEvidence (people : People α) (have_trait : Finset α) : Bool :=
  people.any (fun pr => personFails have_trait pr.1 pr.2)

/-- The trait sets that survive the evidence filter in `main` (lines 64-73):
every subset of the names whose `fails_evidence` test is false.  These are
exactly the trait sets handed on to the gene loops and the evaluator. -/
def traitSets (people : People α) : List (Finset α) :=
  (powerset (people.map Prod.fst)).filter (fun T => !(failsEvidence people T))

/-- The full hypothesis stream of `main`'s triple loop (lines 64-80), as
`(have_trait, one_gene, two_genes)` triples: surviving trait sets crossed
with every `one_gene` subset of the names and every `two_genes` subset of
the remaining names. -/
def hypotheses (people : People α) : List (Finset α × Finset α × Finset α) :=
  (traitSets people).flatMap (fun T =>
    (powerset (people.map Prod.fst)).flatMap (fun one =>
      (powerset ((people.map Prod.fst).filter (fun x => !decide (x ∈ one)))).map
        (fun two => (T, one, two))))

/-- Running sum of `joint_probability` over a list of hypotheses; `none` as
soon as one evaluation raises. -/
def sumJoints (people : People α) : List (Finset α × Finset α × Finset α) → Option ℚ
  | [] => some 0
  | h :: rest => do
      let p ← joint_probability people h.2.1 h.2.2 h.1
      let s ← sumJoints people rest
      pure (p + s)

/-- The total probability mass of the full enumeration. -/
def enumSum (people : People α) : Option ℚ :=
  sumJoints people (hypotheses people)

/-- The accumulation loop of `main`: fold `update` over the hypothesis
stream, starting from the all-zero table; `none` if an evaluation raises. -/
def accumulate (people : People α) : Option (List (α × PersonProbs)) :=
  (hypotheses people).foldlM
    (fun table h =>
      (joint_probability people h.2.1 h.2.2 h.1).map
        (fun p => update table h.2.1 h.2.2 h.1 p))
    (initTable people)

/-- `main` after loading: enumerate, accumulate, then normalize once. -/
def runMain (people : People α) : Option (List (α × PersonProbs)) :=
  (accumulate people).map normalize

/-- One CSV row with fields `name`, `mother`, `father`, `trait`, all raw
strings as `csv.DictReader` yields them. -/
structure Row where
  name : String
  mother : String
  father : String
  trait : String
deriving DecidableEq

/-- `row["mother"] or None`: the empty string is falsy in Python. -/
def strOrNone (s : String) : Option String :=
  if s = "" then none else some s

/-- The trait parsing of `load_data`: `"1"` is observed true, `"0"` observed
false, anything else unknown. -/
def parseTrait (s : String) : Option Bool :=
  if s = "1" then some true else if s = "0" then some false else none

/-- `data[name] = record`: Python dict assignment keeps the first-insertion
position and overwrites the stored value when the key already exists. -/
def dictInsert (d : People String) (k : String) (v : PersonRec String) : People String :=
  if d.any (fun p => p.1 = k) then d.map (fun p => if p.1 = k then (k, v) else p)
  else d ++ [(k, v)]

/-- `load_data(filename)` on the parsed rows: build the people dictionary
row by row.  No validation of any kind is performed. -/
def load_data (rows : List Row) : People String :=
  rows.foldl
    (fun d r => dictInsert d r.name ⟨strOrNone r.mother, strOrNone r.father, parseTrait r.trait⟩)
    []

/-- One person's well-formedness test: both parent fields blank, or both
present and resolving to names of the pedigree. -/
def personWellFormed (names : List α) (r : PersonRec α) : Bool :=
  match r.mother, r.father with
  | none, none => true
  | some mn, some fn => decide (mn ∈ names) && decide (fn ∈ names)
  | _, _ => false

/-- A pedigree is well formed when every record is. -/
def wellFormed (people : People α) : Bool :=
  people.all (fun pr => personWellFormed (people.map Prod.fst) pr.2)

/-- The per-individual factor exactly as the specification describes it: a
parentless individual contributes `genePrior(count) * traitGivenGene(count,
trait)`; an individual with both parents recorded contributes its
parent-derived gene probability times `traitGivenGene(count, trait)`. -/
def claimFactor (one_gene two_genes have_trait : Finset α)
    (person : α) (r : PersonRec α) : ℚ :=
  match r.mother, r.father with
  | some mn, some fn =>
      childGeneProbM PROBS_mutation (genesOf one_gene two_genes fn)
          (genesOf one_gene two_genes mn) (genesOf one_gene two_genes person) *
        PROBS_trait (genesOf one_gene two_genes person) (traitOf have_trait person)
  | _, _ =>
      PROBS_gene (genesOf one_gene two_genes person) *
        PROBS_trait (genesOf one_gene two_genes person) (traitOf have_trait person)

end Heredity

namespace Heredity

/-- A one-person universe for the isolated-individual test pedigree. -/
inductive P1 : Type
  | pat : P1
deriving DecidableEq

/-- The single isolated individual: no parents, trait unknown. -/
def solo : People P1 :=
  [(P1.pat, ⟨none, none, none⟩)]

/-- A three-person universe for the parents-and-child test pedigree. -/
inductive P3 : Type
  | harry : P3
  | james : P3
  | lily : P3
deriving DecidableEq

/-- Two parentless parents and one child with both parents recorded; no
observed traits anywhere. -/
def trio : People P3 :=
  [(P3.harry, ⟨some P3.lily, some P3.james, none⟩),
   (P3.james, ⟨none, none, none⟩),
   (P3.lily, ⟨none, none, none⟩)]

/-- Two parentless parents and one child, with both parents' traits
observed (James true, Lily false) and the child's unknown. -/
def trioObs : People P3 :=
  [(P3.harry, ⟨some P3.lily, some P3.james, none⟩),
   (P3.james, ⟨none, none, some true⟩),
   (P3.lily, ⟨none, none, some false⟩)]

/-- Rows whose first record has a half-recorded parent pair: a father but no
mother. -/
def badRows : List Row :=
  [⟨"Harry", "", "James", ""⟩, ⟨"James", "", "", "1"⟩]

/-- Rows that record the same identity twice with different data. -/
def dupRows : List Row :=
  [⟨"A", "", "", "1"⟩, ⟨"A", "", "", "0"⟩]

/-- The specification's description of evidence agreement (§4.3): a candidate
trait set `T` agrees with the observations when every observed-true
individual is in `T`, every observed-false individual is absent from `T`,
and individuals with unknown trait are unconstrained. -/
def agreesWithEvidence {α : Type} (people : People α) (T : Finset α) : Prop :=
  ∀ pr ∈ people, ∀ b : Bool, pr.2.trait = some b → ((pr.1 ∈ T) ↔ b = true)

end Heredity

namespace Heredity

variable {α : Type} [DecidableEq α]

/-- C7: in `joint_probability`, the per-parent transmission probability of the
variant copy is exactly 1/2 when the parent has one gene copy — for every
mutation rate `m`, since `0.5*(1-m) + 0.5*m` simplifies to `0.5` — it is
`1 - m` when the parent has two copies and `m` when the parent has zero
copies; and the source's fixed-rate computation `pParent` agrees. -/
theorem c7_transmission_probability (m : ℚ) :
    pParentM m 1 = 0.5 ∧ pParentM m 2 = 1 - m ∧ pParentM m 0 = m ∧
      pParent 1 = 0.5 ∧ pParent 2 = 1 - PROBS_mutation ∧ pParent 0 = PROBS_mutation := by
  refine ⟨?_, ?_, ?_, ?_, ?_, ?_⟩ <;> simp [pParent, pParentM] <;> ring

/-- C8: for a child whose two recorded parents both have zero gene copies,
the evaluator's gene-probability factor is `(1-m)^2` for 0 copies,
`2*m*(1-m)` for 1 copy and `m^2` for 2 copies, for every mutation rate `m`;
at the model's rate 0.01 these are 0.9801, 0.0198 and 0.0001. -/
theorem c8_child_of_geneless_parents (m : ℚ) :
    childGeneProbM m 0 0 0 = (1 - m) ^ 2 ∧
      childGeneProbM m 0 0 1 = 2 * m * (1 - m) ∧
      childGeneProbM m 0 0 2 = m ^ 2 ∧
      childGeneProb 0 0 0 = 0.9801 ∧
      childGeneProb 0 0 1 = 0.0198 ∧
      childGeneProb 0 0 2 = 0.0001 := by
  refine ⟨?_, ?_, ?_, ?_, ?_, ?_⟩ <;>
    simp [childGeneProb, childGeneProbM, pParentM, PROBS_mutation] <;> ring_nf

end Heredity

namespace Heredity

variable {α : Type} [DecidableEq α]

/-- C1: the claim says `normalize` divides each distribution by that
distribution's own total with an independent zero-total exception per
distribution; the source instead divides the trait buckets by `gene_sum`
(lines 240-241) and its `continue` on a zero gene sum skips the person's
trait normalization as well.  Evaluated at the failing inputs: a table entry
with gene buckets `(0,0,1)` and trait buckets `(2,0)` keeps trait total 2
(the claim would give trait `(1,0)`), and an entry with zero gene total and
trait buckets `(1,1)` is returned unchanged even though its own trait total
is 2, not 0 (the claim would give trait `(1/2,1/2)`). -/
theorem c1_normalize_uses_gene_sum_for_trait :
    normalizePerson ⟨⟨0, 0, 1⟩, ⟨2, 0⟩⟩ = ⟨⟨0, 0, 1⟩, ⟨2, 0⟩⟩ ∧
      traitSum (normalizePerson ⟨⟨0, 0, 1⟩, ⟨2, 0⟩⟩) = 2 ∧
      normalizePerson ⟨⟨0, 0, 0⟩, ⟨1, 1⟩⟩ = ⟨⟨0, 0, 0⟩, ⟨1, 1⟩⟩ := by
  norm_num [normalizePerson, traitSum]

theorem updatePerson_sums (one_gene two_genes have_trait : Finset α) (p : ℚ) (x : α)
    (d : PersonProbs) :
    geneSum (updatePerson one_gene two_genes have_trait p x d) = geneSum d + p ∧
      traitSum (updatePerson one_gene two_genes have_trait p x d) = traitSum d + p := by
  by_cases h1 : x ∈ one_gene <;> by_cases h2 : x ∈ two_genes <;> by_cases h3 : x ∈ have_trait <;>
    constructor <;> simp [updatePerson, geneSum, traitSum, h1, h2, h3] <;> ring

theorem foldl_update_balanced (us : List (Finset α × Finset α × Finset α × ℚ))
    (tbl : List (α × PersonProbs))
    (h : ∀ x d, (x, d) ∈ tbl → geneSum d = traitSum d) :
    ∀ x d, (x, d) ∈ us.foldl (fun t u => update t u.1 u.2.1 u.2.2.1 u.2.2.2) tbl →
      geneSum d = traitSum d := by
  induction us generalizing tbl with
  | nil => simpa using h
  | cons u us ih =>
      intro x d hmem
      refine ih (update tbl u.1 u.2.1 u.2.2.1 u.2.2.2) ?_ x d (by simpa using hmem)
      intro y e hye
      rcases List.mem_map.mp hye with ⟨⟨z, e0⟩, hz, hze⟩
      simp only [Prod.mk.injEq] at hze
      obtain ⟨rfl, rfl⟩ := hze
      rw [(updatePerson_sums u.1 u.2.1 u.2.2.1 u.2.2.2 z e0).1,
        (updatePerson_sums u.1 u.2.1 u.2.2.1 u.2.2.2 z e0).2, h z e0 hz]

/-- C2: starting from the all-zero posterior table, after any sequence of
`update` calls every person's entry has its three gene buckets summing to
the same value as its two trait buckets, because each `update` adds the full
probability mass to exactly one gene bucket and exactly one trait bucket for
every person. -/
theorem c2_gene_trait_mass_balance (people : People α)
    (us : List (Finset α × Finset α × Finset α × ℚ)) (x : α) (d : PersonProbs)
    (h : (x, d) ∈ us.foldl (fun t u => update t u.1 u.2.1 u.2.2.1 u.2.2.2)
      (initTable people)) :
    geneSum d = traitSum d := by
  refine foldl_update_balanced us (initTable people) ?_ x d h
  intro y e hye
  rcases List.mem_map.mp hye with ⟨pr, _, hpr⟩
  simp only [Prod.mk.injEq] at hpr
  obtain ⟨rfl, rfl⟩ := hpr
  simp [initDist, geneSum, traitSum]

/-- Witness for C2 at a concrete input: one update of mass 1/2 on the
one-person pedigree. -/
theorem c2_gene_trait_mass_balance_witness :
    geneSum ⟨⟨0, 0, (1 : ℚ)/2⟩, ⟨0, 1/2⟩⟩ = traitSum ⟨⟨0, 0, (1 : ℚ)/2⟩, ⟨0, 1/2⟩⟩ :=
  c2_gene_trait_mass_balance solo [(∅, ∅, ∅, 1/2)] P1.pat ⟨⟨0, 0, (1 : ℚ)/2⟩, ⟨0, 1/2⟩⟩
    (by norm_num [update, updatePerson, initTable, initDist, solo])

/-- C3 counterexample: the claim says an invalid pedigree (half-recorded
parent pair, unresolvable parent reference, duplicate identity) is detected
and surfaced before hypothesis enumeration begins.  In the source no
validation exists anywhere: `load_data` returns normally on rows whose first
record carries a father but no mother, handing the half pair through intact;
the failure only appears when `joint_probability` evaluates that record —
inside the enumeration (`accumulate` is where the pipeline dies); and
duplicate identities are silently collapsed (the later row overwrites the
earlier one) with no error at all. -/
theorem c3_no_validation_before_enumeration :
    load_data badRows =
      [("Harry", ⟨none, some "James", none⟩), ("James", ⟨none, none, some true⟩)] ∧
      joint_probability (load_data badRows) ∅ ∅ ∅ = none ∧
      accumulate (load_data badRows) = none ∧
      load_data dupRows = [("A", ⟨none, none, some false⟩)] := by
  refine ⟨?_, ?_, ?_, ?_⟩ <;>
    simp [load_data, dictInsert, badRows, dupRows, strOrNone, parseTrait, accumulate,
      hypotheses, traitSets, powerset, failsEvidence, personFails, initTable, initDist,
      joint_probability, collectProbs, personProb, lookupParentGene]

theorem personProb_none_of_ill (names : List α) (one_gene two_genes have_trait : Finset α)
    (x : α) (r : PersonRec α) (h : personWellFormed names r = false) :
    personProb names one_gene two_genes have_trait x r = none := by
  unfold personWellFormed at h
  cases hm : r.mother <;> cases hf : r.father <;> rw [hm, hf] at h
  · simp at h
  · simp [personProb, hm, hf, lookupParentGene]
  · simp [personProb, hm, hf, lookupParentGene]
  · simp only [Bool.and_eq_false_iff, decide_eq_false_iff_not] at h
    rcases h with h | h <;> simp [personProb, hm, hf, lookupParentGene, h]

theorem collectProbs_none (names : List α) (one_gene two_genes have_trait : Finset α)
    (l : List (α × PersonRec α)) (x : α) (r : PersonRec α) (hmem : (x, r) ∈ l)
    (hnone : personProb names one_gene two_genes have_trait x r = none) :
    collectProbs names one_gene two_genes have_trait l = none := by
  induction l with
  | nil => simp at hmem
  | cons hd tl ih =>
      rcases List.mem_cons.mp hmem with h | h
      · subst h
        simp [collectProbs, hnone]
      · cases hp : personProb names one_gene two_genes have_trait hd.1 hd.2 <;>
          simp [collectProbs, hp, ih h]

/-- C3 amended: no invalid-pedigree detection happens before enumeration;
instead, whenever the pedigree contains a record that is not well formed (a
half-recorded parent pair, or a parent reference that does not resolve), the
evaluator itself raises — `joint_probability` returns `none` — on every
hypothesis, i.e. the error surfaces during enumeration; duplicate identities
are never detected at all. -/
theorem c3_invalid_parent_fails_during_evaluation (people : People α)
    (one_gene two_genes have_trait : Finset α) (x : α) (r : PersonRec α)
    (hmem : (x, r) ∈ people)
    (hbad : personWellFormed (people.map Prod.fst) r = false) :
    joint_probability people one_gene two_genes have_trait = none := by
  unfold joint_probability
  rw [collectProbs_none (people.map Prod.fst) one_gene two_genes have_trait people x r hmem
    (personProb_none_of_ill (people.map Prod.fst) one_gene two_genes have_trait x r hbad)]
  rfl

/-- Witness for the amended C3: the loaded half-pair pedigree makes the
evaluator raise. -/
theorem c3_invalid_parent_fails_during_evaluation_witness :
    joint_probability (load_data badRows) ∅ ∅ ∅ = none :=
  c3_invalid_parent_fails_during_evaluation (load_data badRows) ∅ ∅ ∅
    "Harry" ⟨none, some "James", none⟩
    (by simp [load_data, dictInsert, badRows, strOrNone, parseTrait])
    (by simp [personWellFormed])

set_option maxRecDepth 100000 in
set_option maxHeartbeats 4000000 in
/-- C4: for the three-person pedigree of two parentless parents and one
child with both parents recorded and no observed traits, the enumeration of
`main` produces all 8 trait subsets crossed with all 27 disjoint
one-gene/two-gene subset pairs, and the sum of `joint_probability` over
every enumerated hypothesis is exactly 1. -/
theorem c4_enumeration_total_mass_one :
    (hypotheses trio).length = 216 ∧ enumSum trio = some 1 := by
  constructor
  · decide
  · simp [enumSum, sumJoints, hypotheses, traitSets, powerset, failsEvidence, personFails,
      trio, joint_probability, collectProbs, personProb, lookupParentGene, genesOf, traitOf,
      childGeneProbM, pParentM, PROBS_gene, PROBS_trait, PROBS_mutation]
    norm_num

set_option maxRecDepth 100000 in
set_option maxHeartbeats 1000000 in
/-- C5: for a pedigree with a single individual having no recorded parents
and no observed trait, the final normalized gene-count posterior produced by
enumeration, accumulation and normalization is exactly the unconditional
gene prior: 0.96 for zero copies, 0.03 for one copy, 0.01 for two copies
(the trait posterior is the corresponding mixture 0.0329/0.9671). -/
theorem c5_isolated_individual_posterior_is_prior :
    runMain solo = some [(P1.pat, ⟨⟨0.01, 0.03, 0.96⟩, ⟨0.0329, 0.9671⟩⟩)] := by
  norm_num [runMain, accumulate, hypotheses, traitSets, powerset, failsEvidence, personFails,
    solo, joint_probability, collectProbs, personProb, lookupParentGene, genesOf, traitOf,
    PROBS_gene, PROBS_trait, PROBS_mutation, initTable, initDist, update, updatePerson,
    normalize, normalizePerson, geneSum, traitSum]

theorem personProb_eq_claimFactor (names : List α) (one_gene two_genes have_trait : Finset α)
    (x : α) (r : PersonRec α) (h : personWellFormed names r = true) :
    personProb names one_gene two_genes have_trait x r =
      some (claimFactor one_gene two_genes have_trait x r) := by
  unfold personWellFormed at h
  cases hm : r.mother <;> cases hf : r.father <;> rw [hm, hf] at h
  · simp [personProb, claimFactor, hm, hf]
  · simp at h
  · simp at h
  · simp only [Bool.and_eq_true, decide_eq_true_eq] at h
    simp [personProb, claimFactor, hm, hf, lookupParentGene, h.1, h.2]

theorem collectProbs_wellFormed (names : List α) (one_gene two_genes have_trait : Finset α)
    (l : List (α × PersonRec α)) (h : ∀ pr ∈ l, personWellFormed names pr.2 = true) :
    collectProbs names one_gene two_genes have_trait l =
      some (l.map (fun pr => claimFactor one_gene two_genes have_trait pr.1 pr.2)) := by
  induction l with
  | nil => simp [collectProbs]
  | cons hd tl ih =>
      simp [collectProbs,
        personProb_eq_claimFactor names one_gene two_genes have_trait hd.1 hd.2
          (h hd (by simp)),
        ih (fun pr hpr => h pr (by simp [hpr]))]

/-- C6: on every well-formed pedigree (each record has either no recorded
parents or both recorded and resolvable) and any hypothesis,
`joint_probability` returns the product over all individuals of the
per-individual factor: gene prior times trait emission for a parentless
individual, parent-derived gene probability times trait emission for an
individual with both parents recorded. -/
theorem c6_joint_factorizes (people : People α) (one_gene two_genes have_trait : Finset α)
    (h : wellFormed people = true) :
    joint_probability people one_gene two_genes have_trait =
      some ((people.map
        (fun pr => claimFactor one_gene two_genes have_trait pr.1 pr.2)).prod) := by
  unfold joint_probability
  rw [collectProbs_wellFormed (people.map Prod.fst) one_gene two_genes have_trait people
    (by simpa [wellFormed] using h)]
  simp [List.prod_eq_foldl]

/-- Witness for C6 on the concrete three-person pedigree. -/
theorem c6_joint_factorizes_witness :
    joint_probability trio {P3.harry} {P3.james} {P3.harry} =
      some ((trio.map
        (fun pr => claimFactor {P3.harry} {P3.james} {P3.harry} pr.1 pr.2)).prod) :=
  c6_joint_factorizes trio {P3.harry} {P3.james} {P3.harry} (by decide)

theorem mem_powerset_iff (l : List α) (T : Finset α) : T ∈ powerset l ↔ T ⊆ l.toFinset := by
  induction l generalizing T with
  | nil => simp [powerset, Finset.subset_empty]
  | cons a as ih =>
      simp only [powerset, List.mem_append, List.mem_map, List.toFinset_cons]
      constructor
      · rintro (h | ⟨S, hS, rfl⟩)
        · exact ((ih T).mp h).trans (Finset.subset_insert a as.toFinset)
        · exact Finset.insert_subset_insert a ((ih S).mp hS)
      · intro h
        by_cases ha : a ∈ T
        · exact Or.inr ⟨T.erase a, (ih _).mpr (Finset.subset_insert_iff.mp h),
            Finset.insert_erase ha⟩
        · refine Or.inl ((ih T).mpr fun x hx => ?_)
          rcases Finset.mem_insert.mp (h hx) with rfl | h2
          · exact absurd hx ha
          · exact h2

theorem mem_traitSets_iff (people : People α) (T : Finset α) :
    T ∈ traitSets people ↔
      T ⊆ (people.map Prod.fst).toFinset ∧ failsEvidence people T = false := by
  simp [traitSets, List.mem_filter, mem_powerset_iff]

theorem failsEvidence_false_iff (people : People α) (T : Finset α) :
    failsEvidence people T = false ↔ agreesWithEvidence people T := by
  unfold failsEvidence agreesWithEvidence
  simp only [List.any_eq_false]
  constructor
  · intro h pr hpr b hb
    have := h pr hpr
    rw [personFails, hb] at this
    simp only [Bool.not_eq_true, bne_eq_false_iff_eq] at this
    cases b
    · simp only [Bool.false_eq_true, iff_false]
      exact of_decide_eq_false this.symm
    · simp only [iff_true]
      exact of_decide_eq_true this.symm
  · intro h pr hpr
    rw [personFails]
    cases hb : pr.2.trait with
    | none => simp
    | some b =>
        have := h pr hpr b hb
        cases b <;> simp_all

/-- C9: evidence filtering over trait subsets is sound — every trait set the
filter passes on agrees with all observed traits — and complete — every
subset of the names that agrees with the observations is enumerated; in
particular an observed-true individual is in every enumerated trait set. -/
theorem c9_evidence_filter_sound_complete (people : People α) (T : Finset α) :
    (T ∈ traitSets people → agreesWithEvidence people T) ∧
      (T ⊆ (people.map Prod.fst).toFinset → agreesWithEvidence people T →
        T ∈ traitSets people) ∧
      (T ∈ traitSets people → ∀ pr ∈ people, pr.2.trait = some true → pr.1 ∈ T) := by
  refine ⟨fun h => ?_, fun hsub hagree => ?_, fun h pr hpr htrue => ?_⟩
  · exact (failsEvidence_false_iff people T).mp ((mem_traitSets_iff people T).mp h).2
  · exact (mem_traitSets_iff people T).mpr
      ⟨hsub, (failsEvidence_false_iff people T).mpr hagree⟩
  · exact ((failsEvidence_false_iff people T).mp
      ((mem_traitSets_iff people T).mp h).2 pr hpr true htrue).mpr rfl

/-- Witness for C9: on the observed-trait pedigree, the agreeing set
`{james}` is enumerated. -/
theorem c9_evidence_filter_sound_complete_witness :
    ({P3.james} : Finset P3) ∈ traitSets trioObs :=
  (c9_evidence_filter_sound_complete trioObs {P3.james}).2.1 (by decide)
    (by
      intro pr hpr b hb
      simp only [trioObs, List.mem_cons, List.not_mem_nil, or_false] at hpr
      rcases hpr with rfl | rfl | rfl <;> simp_all)

theorem genesOf_sdiff (one_gene two_genes : Finset α) (x : α) :
    genesOf one_gene (two_genes \ one_gene) x = genesOf one_gene two_genes x := by
  by_cases h1 : x ∈ one_gene <;> by_cases h2 : x ∈ two_genes <;>
    simp [genesOf, h1, h2, Finset.mem_sdiff]

theorem lookupParentGene_sdiff (names : List α) (one_gene two_genes : Finset α)
    (pn : Option α) :
    lookupParentGene names one_gene (two_genes \ one_gene) pn =
      lookupParentGene names one_gene two_genes pn := by
  cases pn <;> simp [lookupParentGene, genesOf_sdiff]

theorem personProb_sdiff (names : List α) (one_gene two_genes have_trait : Finset α)
    (x : α) (r : PersonRec α) :
    personProb names one_gene (two_genes \ one_gene) have_trait x r =
      personProb names one_gene two_genes have_trait x r := by
  simp only [personProb, genesOf_sdiff, lookupParentGene_sdiff]

theorem collectProbs_sdiff (names : List α) (one_gene two_genes have_trait : Finset α)
    (l : List (α × PersonRec α)) :
    collectProbs names one_gene (two_genes \ one_gene) have_trait l =
      collectProbs names one_gene two_genes have_trait l := by
  induction l with
  | nil => rfl
  | cons hd tl ih => simp only [collectProbs, personProb_sdiff, ih]

/-- C10: if `one_gene` and `two_genes` overlap, `joint_probability` raises no
error; every person in both sets is assigned one gene copy (the `one_gene`
membership test comes first), so the result equals the joint probability
with the overlap removed from `two_genes`. -/
theorem c10_overlap_one_gene_wins (people : People α)
    (one_gene two_genes have_trait : Finset α) :
    (∀ x, x ∈ one_gene → x ∈ two_genes → genesOf one_gene two_genes x = 1) ∧
      joint_probability people one_gene two_genes have_trait =
        joint_probability people one_gene (two_genes \ one_gene) have_trait := by
  constructor
  · intro x h1 _
    simp [genesOf, h1]
  · unfold joint_probability
    rw [collectProbs_sdiff]

/-- Witness for C10 with fully overlapping gene sets on the one-person
pedigree. -/
theorem c10_overlap_one_gene_wins_witness :
    genesOf ({P1.pat} : Finset P1) {P1.pat} P1.pat = 1 ∧
      joint_probability solo {P1.pat} {P1.pat} ∅ =
        joint_probability solo {P1.pat} ({P1.pat} \ {P1.pat}) ∅ :=
  ⟨(c10_overlap_one_gene_wins solo {P1.pat} {P1.pat} ∅).1 P1.pat (by decide) (by decide),
    (c10_overlap_one_gene_wins solo {P1.pat} {P1.pat} ∅).2⟩

end Heredity
